import Mathlib

/-!
# Verification of the DigiX GitHub commit-monitor core

Shallow embedding of the repository's monitoring engine:
* `database.py` — the SQLite store (`repositories`, `commit_history`, `users`
  tables modelled as Lean lists of rows, operations translated statement by
  statement from the SQL in the source);
* `github_api.py` — `get_latest_commits` (the HTTP layer is modelled by a
  `RemoteRepo` data source honouring the hosting API's documented
  `since`/`per_page` contract; every error path in the source returns `[]`);
* `monitor.py` — `check_repository`, `process_new_commits`,
  `send_commit_notification`, `check_all_repositories`;
* `bot.py` — the database-mutating core of `handle_add`.

Timestamps are integers (seconds); message text rendering
(`translation.get`, Markdown bodies) is abstracted: a produced message is
either an individual commit message or a batch summary.
-/

namespace DigiX

/-- A parsed commit as produced by `GitHubAPI.get_latest_commits`
(`github_api.py`, the `commit_info` dictionary). -/
structure Commit where
  sha : String
  message : String
  authorName : String
  authorEmail : String
  date : Int
  url : String
  repoFullName : String
  added : Nat
  removed : Nat
  modified : Nat
deriving Repr, DecidableEq

/-- A row of the `repositories` table (`database.py`, `init_db`).
`UNIQUE(chat_id, repo_full_name)`; watermark columns are nullable. -/
structure RepoRow where
  chatId : Int
  repoFullName : String
  repoUrl : String
  lastCommitSha : Option String
  lastCheck : Option Int
  lastCommitDate : Option Int
  branch : String
deriving Repr, DecidableEq

/-- A row of the `commit_history` table (`database.py`, `init_db`). -/
structure CommitRow where
  repoFullName : String
  commitSha : String
  commitMessage : String
  authorName : String
  authorEmail : String
  commitDate : Int
  commitUrl : String
  added : Nat
  removed : Nat
  modified : Nat
deriving Repr, DecidableEq

/-- A row of the `users` table (`database.py`, `init_db`). -/
structure UserRow where
  chatId : Int
  username : Option String
  language : String
deriving Repr, DecidableEq

/-- The SQLite database state: each table is its list of rows in rowid
(insertion) order, which is the order an unordered `SELECT` scans them. -/
structure Database where
  users : List UserRow
  repositories : List RepoRow
  commitHistory : List CommitRow
deriving Repr, DecidableEq

/-- Model of `Database.is_commit_logged`: `SELECT 1 FROM commit_history WHERE
repo_full_name = ? AND commit_sha = ? LIMIT 1` — membership test. -/
def is_commit_logged (db : Database) (repo sha : String) : Bool :=
  db.commitHistory.any (fun r => decide (r.repoFullName = repo ∧ r.commitSha = sha))

/-- The `commit_history` row built by `Database.log_commit` from the commit
dictionary (the `INSERT INTO commit_history ... VALUES ...` tuple). -/
def commitRow (c : Commit) : CommitRow :=
  { repoFullName := c.repoFullName
    commitSha := c.sha
    commitMessage := c.message
    authorName := c.authorName
    authorEmail := c.authorEmail
    commitDate := c.date
    commitUrl := c.url
    added := c.added
    removed := c.removed
    modified := c.modified }

/-- Model of `Database.log_commit`: a plain `INSERT INTO commit_history` — always
appends a row, with no uniqueness constraint on `(repo_full_name, commit_sha)`. -/
def log_commit (db : Database) (c : Commit) : Database :=
  { db with commitHistory := db.commitHistory ++ [commitRow c] }

/-- Model of `Database.update_last_commit`: `UPDATE repositories SET last_commit_sha,
last_commit_date, last_check WHERE repo_full_name = ?` — rewrites the
watermark columns of every row of that repository. -/
def update_last_commit (db : Database) (repo sha : String) (date now : Int) : Database :=
  { db with repositories := db.repositories.map (fun r =>
      if r.repoFullName = repo then
        { r with lastCommitSha := some sha, lastCommitDate := some date, lastCheck := some now }
      else r) }

/-- Model of `Database.get_last_commit_date`: `SELECT last_commit_date FROM
repositories WHERE repo_full_name = ?` then `fetchone` — the first matching
row in table order; `None` when there is no row or the column is NULL. -/
def get_last_commit_date (db : Database) (repo : String) : Option Int :=
  match db.repositories.find? (fun r => decide (r.repoFullName = repo)) with
  | none => none
  | some r => r.lastCommitDate

/-- Model of `Database.get_repo_subscribers`: `SELECT chat_id FROM repositories
WHERE repo_full_name = ?`. -/
def get_repo_subscribers (db : Database) (repo : String) : List Int :=
  (db.repositories.filter (fun r => decide (r.repoFullName = repo))).map (fun r => r.chatId)

/-- Model of `Database.get_user_language`: `SELECT language FROM users WHERE
chat_id = ?`; `None` when the user does not exist. -/
def get_user_language (db : Database) (chatId : Int) : Option String :=
  match db.users.find? (fun u => decide (u.chatId = chatId)) with
  | none => none
  | some u => some u.language

/-- One entry of `Database.get_all_monitored_repos`:
`SELECT DISTINCT repo_full_name, repo_url, branch FROM repositories`. -/
structure MonitoredRepo where
  repoFullName : String
  repoUrl : String
  branch : String
deriving Repr, DecidableEq

/-- The `SELECT DISTINCT` scan, keeping the first occurrence of each triple. -/
def distinctRepos (l : List MonitoredRepo) : List MonitoredRepo :=
  l.foldl (fun acc x => if x ∈ acc then acc else acc ++ [x]) []

/-- Model of `Database.get_all_monitored_repos`. -/
def get_all_monitored_repos (db : Database) : List MonitoredRepo :=
  distinctRepos (db.repositories.map (fun r =>
    { repoFullName := r.repoFullName, repoUrl := r.repoUrl, branch := r.branch }))

/-- Model of `Database.add_user`: `INSERT OR IGNORE INTO users` — appends only when
the chat id is not present. -/
def add_user (db : Database) (chatId : Int) (username : Option String) (language : String) :
    Database :=
  if db.users.any (fun u => decide (u.chatId = chatId)) then db
  else { db with users := db.users ++ [{ chatId := chatId, username := username, language := language }] }

/-- Model of `Database.add_repository`: ensure the user row exists (`INSERT OR
IGNORE` with the default language), `DELETE FROM repositories WHERE
chat_id = ? AND repo_full_name = ?`, then `INSERT` a fresh row whose
watermark columns are NULL and whose `last_check` is `datetime.now()`. -/
def add_repository (db : Database) (chatId : Int) (repo url branch : String) (now : Int) :
    Database :=
  let db1 := add_user db chatId none "en"
  let kept := db1.repositories.filter (fun r =>
    !(decide (r.chatId = chatId ∧ r.repoFullName = repo)))
  { db1 with repositories := kept ++
      [{ chatId := chatId, repoFullName := repo, repoUrl := url,
         lastCommitSha := none, lastCheck := some now, lastCommitDate := none,
         branch := branch }] }

/-- One repository-and-branch view of the remote hosting service: the
branch's commit list as the API would page it (newest first), and whether
the fetch succeeds this cycle. -/
structure RemoteRepo where
  reachable : Bool
  history : List Commit
deriving Repr

/-- The remote source, keyed by repository full name and branch. -/
def Remote : Type := String → String → RemoteRepo

/-- Model of `GitHubAPI.get_latest_commits` (`github_api.py`): on any failure
(timeout, connection error, 404/403/409/…, parse error) every path in the
source returns `[]`.  On success the hosting API applies the request
parameters server-side — `since` keeps commits dated at or after the bound
(the spec notes the bound is inclusive) and `per_page: 20` returns the
first page of 20. -/
def get_latest_commits (r : RemoteRepo) (since : Option Int) : List Commit :=
  if r.reachable then
    (match since with
      | some s => r.history.filter (fun c : Commit => decide (s ≤ c.date))
      | none => r.history).take 20
  else []

/-- A message produced by `MonitorManager.send_commit_notification`:
either one formatted commit (`_format_commit_message`) or the overflow
summary (`commit_summary` template with `total_commits` and `extra_count`). -/
inductive OutMsg where
  | individual (c : Commit)
  | summary (total : Nat) (extra : Nat)
deriving Repr, DecidableEq

/-- The messages `MonitorManager.send_commit_notification` sends to one
chat: nothing for an empty batch, else one individual message per commit of
`commits[:5]`, plus — when `len(commits) > 5` — one summary stating
`len(commits) - 5` extra commits.  The rendered text (locale-dependent) is
abstracted away. -/
def send_commit_notification (commits : List Commit) (language : Option String) :
    List OutMsg :=
  if commits.isEmpty then []
  else
    (commits.take 5).map OutMsg.individual ++
      (if 5 < commits.length then
        [OutMsg.summary commits.length (commits.length - 5)]
      else [])

/-- The notifications the monitor attempted for one chat during a sweep
step: the chat id, the repository the messages are about, and the messages. -/
structure Notification where
  chatId : Int
  repoFullName : String
  messages : List OutMsg
deriving Repr, DecidableEq

/-- Model of `commits.sort(key=lambda x: x['date'], reverse=True)` — a stable sort
descending by commit date (Python's `list.sort` is stable, so commits with
equal dates keep their arrival order).  The output of a stable sort is
uniquely determined by the key order and the arrival order, so it is
modelled by stable insertion sort. -/
def sortDesc (commits : List Commit) : List Commit :=
  commits.insertionSort (fun a b => b.date ≤ a.date)

/-- Model of `MonitorManager.process_new_commits`: sort descending by date, log every
commit, then — if the batch is non-empty — set the repository watermark to
`commits[0]` and fan out to all subscribers.  A failure while notifying one
subscriber is caught (`try/except` around the per-subscriber body) and the
loop continues; `failures` says which subscribers' sends raise. -/
def process_new_commits (failures : Int → Bool) (now : Int) (db : Database)
    (repo : String) (commits : List Commit) : Database × List Notification :=
  let sorted := sortDesc commits
  let db1 := sorted.foldl log_commit db
  match sorted with
  | [] => (db1, [])
  | latest :: _ =>
      let db2 := update_last_commit db1 repo latest.sha latest.date now
      (db2, (get_repo_subscribers db2 repo).filterMap (fun chatId =>
        if failures chatId then none
        else some { chatId := chatId, repoFullName := repo,
                    messages := send_commit_notification sorted (get_user_language db2 chatId) }))

/-- The detection lower bound of `MonitorManager.check_repository`
(lines 39–44): the stored last commit date, or `now` minus the 24-hour
lookback window (`timedelta(hours=24)` = 86400 s) on a first check. -/
def lower_bound (db : Database) (repo : String) (now : Int) : Int :=
  match get_last_commit_date db repo with
  | some d => d
  | none => now - 86400

/-- Model of `MonitorManager.check_repository`: compute the lower bound; fetch;
return early when nothing came back; filter out commits already in the
seen-set; process the remainder.  Every exception is caught, so a failed
fetch leaves the state untouched. -/
def check_repository (remote : Remote) (failures : Int → Bool) (now : Int)
    (db : Database) (repo branch : String) : Database × List Notification :=
  let commits := get_latest_commits (remote repo branch) (some (lower_bound db repo now))
  if commits.isEmpty then (db, [])
  else
    let newCommits := commits.filter (fun c => !(is_commit_logged db repo c.sha))
    if newCommits.isEmpty then (db, [])
    else process_new_commits failures now db repo newCommits

/-- The body of the `for repo in repos` loop of
`MonitorManager.check_all_repositories`, threading the database and
accumulating the notifications. -/
def sweepStep (remote : Remote) (failures : Int → Bool) (now : Int)
    (acc : Database × List Notification) (mr : MonitoredRepo) :
    Database × List Notification :=
  let r := check_repository remote failures now acc.1 mr.repoFullName mr.branch
  (r.1, acc.2 ++ r.2)

/-- A sweep over an explicit repository list. -/
def sweep (remote : Remote) (failures : Int → Bool) (now : Int)
    (repos : List MonitoredRepo) (db : Database) : Database × List Notification :=
  repos.foldl (sweepStep remote failures now) (db, [])

/-- Model of `MonitorManager.check_all_repositories`: check every monitored
repository in sequence (each step catches its own exceptions). -/
def check_all_repositories (remote : Remote) (failures : Int → Bool) (now : Int)
    (db : Database) : Database × List Notification :=
  sweep remote failures now (get_all_monitored_repos db) db

/-- The database-mutating core of `BotHandler.handle_add` (`bot.py`): after
validation succeeds, `add_repository`; then fetch the branch head page with
no `since` bound; if any commit came back, set the watermark to `commits[0]`
and log that commit. -/
def handle_add (remote : Remote) (now : Int) (db : Database) (chatId : Int)
    (repo url branch : String) : Database :=
  let db1 := add_repository db chatId repo url branch now
  match get_latest_commits (remote repo branch) none with
  | [] => db1
  | latest :: _ =>
      let db2 := update_last_commit db1 repo latest.sha latest.date now
      log_commit db2 latest

/-- A primitive database write issued by `process_new_commits`, in program
order: the `log_commit` inserts, then the `update_last_commit`. -/
inductive DbOp where
  | logOne (c : Commit)
  | setWatermark (repo sha : String) (date now : Int)
deriving Repr, DecidableEq

/-- Execute one primitive write. -/
def applyOp (db : Database) : DbOp → Database
  | .logOne c => log_commit db c
  | .setWatermark repo sha date now => update_last_commit db repo sha date now

/-- Execute a list of primitive writes in order. -/
def runOps (db : Database) (ops : List DbOp) : Database :=
  ops.foldl applyOp db

/-- The exact sequence of database writes `process_new_commits` performs:
one `log_commit` per commit (in sorted order), then — for a non-empty
batch — the single watermark update. -/
def process_new_commits_ops (now : Int) (repo : String) (commits : List Commit) :
    List DbOp :=
  let sorted := sortDesc commits
  sorted.map DbOp.logOne ++
    (match sorted with
      | [] => []
      | latest :: _ => [DbOp.setWatermark repo latest.sha latest.date now])

/-- The spec's persisted-watermark choice, written from the spec's words
("the newest commit by timestamp among all newly detected commits,
tie-broken by commit hash lexical order for determinism"): the maximum of
the batch under the (timestamp, then hash) lexicographic order. -/
def spec_watermark (commits : List Commit) : Option (String × Int) :=
  match commits.foldl (fun best c =>
      match best with
      | none => some c
      | some b =>
          if b.date < c.date ∨ (b.date = c.date ∧ b.sha.data < c.sha.data) then some c
          else some b)
    none with
  | none => none
  | some c => some (c.sha, c.date)

/-- The watermark columns an observer reads back for a repository
(first matching row, as `get_last_commit_date` does for the date column). -/
def stored_watermark (db : Database) (repo : String) : Option (String × Int) :=
  match db.repositories.find? (fun r => decide (r.repoFullName = repo)) with
  | none => none
  | some r =>
      match r.lastCommitSha, r.lastCommitDate with
      | some sha, some d => some (sha, d)
      | _, _ => none

/-! ## Basic facts about the store operations -/

/-- Logging commits never touches the `repositories` table. -/
theorem foldl_log_repositories (cs : List Commit) (db : Database) :
    (cs.foldl log_commit db).repositories = db.repositories := by
  induction cs generalizing db with
  | nil => rfl
  | cons c cs ih => simpa [log_commit] using ih (log_commit db c)

/-- Logging commits never touches the `users` table. -/
theorem foldl_log_users (cs : List Commit) (db : Database) :
    (cs.foldl log_commit db).users = db.users := by
  induction cs generalizing db with
  | nil => rfl
  | cons c cs ih => simpa [log_commit] using ih (log_commit db c)

/-- A seen-set membership survives one append to the commit log. -/
theorem is_commit_logged_log_mono {db : Database} {r s : String} (c : Commit)
    (h : is_commit_logged db r s = true) :
    is_commit_logged (log_commit db c) r s = true := by
  simp only [is_commit_logged, log_commit, List.any_append, Bool.or_eq_true]
  exact Or.inl h

/-- A seen-set membership survives any sequence of appends. -/
theorem is_commit_logged_foldl_mono {db : Database} {r s : String} (cs : List Commit)
    (h : is_commit_logged db r s = true) :
    is_commit_logged (cs.foldl log_commit db) r s = true := by
  induction cs generalizing db with
  | nil => exact h
  | cons c cs ih => exact ih (is_commit_logged_log_mono c h)

/-- After `log_commit`, the logged commit is in the seen-set of its repository. -/
theorem is_commit_logged_log_self (db : Database) {c : Commit} {repo : String}
    (h : c.repoFullName = repo) :
    is_commit_logged (log_commit db c) repo c.sha = true := by
  simp only [is_commit_logged, log_commit, List.any_append, Bool.or_eq_true]
  exact Or.inr (by simp [commitRow, h])

/-- After folding `log_commit` over a batch, every member of the batch is in
the seen-set of its repository. -/
theorem is_commit_logged_foldl_mem {repo : String} :
    ∀ (cs : List Commit) (db : Database) (c : Commit), c ∈ cs → c.repoFullName = repo →
      is_commit_logged (cs.foldl log_commit db) repo c.sha = true := by
  intro cs
  induction cs with
  | nil => intro db c h; cases h
  | cons d ds ih =>
      intro db c hmem hname
      rcases List.mem_cons.mp hmem with rfl | h
      · exact is_commit_logged_foldl_mono ds (is_commit_logged_log_self db hname)
      · exact ih (log_commit db d) c h hname

/-- The watermark update never touches the commit log. -/
theorem update_commitHistory (db : Database) (repo sha : String) (d n : Int) :
    (update_last_commit db repo sha d n).commitHistory = db.commitHistory := rfl

/-- The seen-set is unaffected by a watermark update. -/
theorem is_commit_logged_update (db : Database) (repo sha : String) (d n : Int)
    (r s : String) :
    is_commit_logged (update_last_commit db repo sha d n) r s = is_commit_logged db r s := rfl

/-- The row rewrite performed by `update_last_commit` on a single row. -/
def updRow (repo sha : String) (d n : Int) (r : RepoRow) : RepoRow :=
  if r.repoFullName = repo then
    { r with lastCommitSha := some sha, lastCommitDate := some d, lastCheck := some n }
  else r

theorem update_repositories_eq_map (db : Database) (repo sha : String) (d n : Int) :
    (update_last_commit db repo sha d n).repositories
      = db.repositories.map (updRow repo sha d n) := rfl

/-- The watermark rewrite preserves each row's repository name. -/
theorem updRow_repoFullName (repo sha : String) (d n : Int) (r : RepoRow) :
    (updRow repo sha d n r).repoFullName = r.repoFullName := by
  unfold updRow; split <;> rfl

/-- The watermark rewrite preserves each row's chat id. -/
theorem updRow_chatId (repo sha : String) (d n : Int) (r : RepoRow) :
    (updRow repo sha d n r).chatId = r.chatId := by
  unfold updRow; split <;> rfl

/-- Searching rows by repository name commutes with the watermark rewrite. -/
theorem find?_name_update (db : Database) (repo sha : String) (d n : Int) (q : String) :
    (update_last_commit db repo sha d n).repositories.find?
        (fun r => decide (r.repoFullName = q))
      = (db.repositories.find? (fun r => decide (r.repoFullName = q))).map
          (updRow repo sha d n) := by
  rw [update_repositories_eq_map, List.find?_map]
  have hp : ((fun r => decide (r.repoFullName = q)) ∘ updRow repo sha d n)
      = (fun r : RepoRow => decide (r.repoFullName = q)) := by
    funext r
    simp [Function.comp, updRow_repoFullName]
  rw [hp]

/-- The subscriber list of every repository is unchanged by a watermark update. -/
theorem get_repo_subscribers_update (db : Database) (repo sha : String) (d n : Int)
    (q : String) :
    get_repo_subscribers (update_last_commit db repo sha d n) q
      = get_repo_subscribers db q := by
  unfold get_repo_subscribers
  rw [update_repositories_eq_map, List.filter_map, List.map_map]
  have hp : ((fun r => decide (r.repoFullName = q)) ∘ updRow repo sha d n)
      = (fun r : RepoRow => decide (r.repoFullName = q)) := by
    funext r
    simp [Function.comp, updRow_repoFullName]
  have hc : ((fun r : RepoRow => r.chatId) ∘ updRow repo sha d n)
      = (fun r : RepoRow => r.chatId) := by
    funext r
    simp [Function.comp, updRow_chatId]
  rw [hp, hc]

/-! ## Facts about the stable descending sort -/

instance : IsTotal Commit (fun a b => b.date ≤ a.date) :=
  ⟨fun a b => le_total b.date a.date⟩

instance : IsTrans Commit (fun a b => b.date ≤ a.date) :=
  ⟨fun _ _ _ h1 h2 => le_trans h2 h1⟩

theorem sortDesc_perm (cs : List Commit) : (sortDesc cs).Perm cs :=
  List.perm_insertionSort _ cs

theorem sortDesc_sorted (cs : List Commit) :
    (sortDesc cs).Pairwise (fun a b => b.date ≤ a.date) :=
  List.sorted_insertionSort _ cs

theorem sortDesc_eq_nil_iff (cs : List Commit) : sortDesc cs = [] ↔ cs = [] := by
  constructor
  · intro h
    have := sortDesc_perm cs
    rw [h] at this
    exact (List.Perm.nil_eq this).symm
  · intro h
    subst h
    rfl

/-- The head of the descending sort has the maximal date of the batch. -/
theorem sortDesc_head_max {cs : List Commit} {latest : Commit} {rest : List Commit}
    (h : sortDesc cs = latest :: rest) :
    ∀ c ∈ cs, c.date ≤ latest.date := by
  intro c hc
  have hperm := sortDesc_perm cs
  have hc' : c ∈ sortDesc cs := hperm.mem_iff.mpr hc
  rw [h] at hc'
  rcases List.mem_cons.mp hc' with rfl | hmem
  · exact le_refl _
  · have hs := sortDesc_sorted cs
    rw [h] at hs
    exact (List.pairwise_cons.mp hs).1 c hmem

/-! ## Facts about the produced messages -/

/-- Every individually formatted message of a batch notification is about a
commit of the batch. -/
theorem mem_send_individual {cs : List Commit} {lang : Option String} {c : Commit}
    (h : OutMsg.individual c ∈ send_commit_notification cs lang) : c ∈ cs := by
  unfold send_commit_notification at h
  split at h
  · cases h
  · rcases List.mem_append.mp h with h | h
    · rcases List.mem_map.mp h with ⟨d, hd, he⟩
      cases he
      exact List.mem_of_mem_take hd
    · split at h <;> simp_all

/-! ## Characterizations of `process_new_commits` and `check_repository` -/

theorem process_nil (f : Int → Bool) (now : Int) (db : Database) (repo : String) :
    process_new_commits f now db repo [] = (db, []) := rfl

theorem process_eq {cs : List Commit} {latest : Commit} {rest : List Commit}
    (h : sortDesc cs = latest :: rest) (f : Int → Bool) (now : Int) (db : Database)
    (repo : String) :
    process_new_commits f now db repo cs
      = (update_last_commit ((latest :: rest).foldl log_commit db)
            repo latest.sha latest.date now,
         (get_repo_subscribers
              (update_last_commit ((latest :: rest).foldl log_commit db)
                repo latest.sha latest.date now) repo).filterMap
           (fun chatId =>
             if f chatId then none
             else some { chatId := chatId, repoFullName := repo,
                         messages := send_commit_notification (latest :: rest)
                           (get_user_language
                             (update_last_commit ((latest :: rest).foldl log_commit db)
                               repo latest.sha latest.date now) chatId) })) := by
  unfold process_new_commits
  rw [h]

/-- The database written by a sweep step does not depend on which
subscribers' deliveries fail. -/
theorem process_fst_indep (f g : Int → Bool) (now : Int) (db : Database)
    (repo : String) (cs : List Commit) :
    (process_new_commits f now db repo cs).1 = (process_new_commits g now db repo cs).1 := by
  cases h : sortDesc cs with
  | nil =>
      have hcs : cs = [] := (sortDesc_eq_nil_iff cs).mp h
      subst hcs
      rw [process_nil, process_nil]
  | cons latest rest => rw [process_eq h, process_eq h]

theorem logged_process_mono {db : Database} {r s : String} (f : Int → Bool) (now : Int)
    (repo : String) (cs : List Commit) (h : is_commit_logged db r s = true) :
    is_commit_logged (process_new_commits f now db repo cs).1 r s = true := by
  cases hs : sortDesc cs with
  | nil =>
      have hcs : cs = [] := (sortDesc_eq_nil_iff cs).mp hs
      subst hcs
      rw [process_nil]
      exact h
  | cons latest rest =>
      rw [process_eq hs]
      rw [is_commit_logged_update]
      exact is_commit_logged_foldl_mono _ h

/-- After a sweep step, every commit of the processed batch is in the
seen-set of the step's repository. -/
theorem logged_process_mem {cs : List Commit} {c : Commit} {repo : String}
    (f : Int → Bool) (now : Int) (db : Database)
    (hmem : c ∈ cs) (hname : c.repoFullName = repo) :
    is_commit_logged (process_new_commits f now db repo cs).1 repo c.sha = true := by
  cases hs : sortDesc cs with
  | nil =>
      have hcs : cs = [] := (sortDesc_eq_nil_iff cs).mp hs
      subst hcs
      cases hmem
  | cons latest rest =>
      rw [process_eq hs]
      have hc : c ∈ latest :: rest := by
        rw [← hs]
        exact (sortDesc_perm cs).mem_iff.mpr hmem
      rw [is_commit_logged_update]
      exact is_commit_logged_foldl_mem (latest :: rest) db c hc hname

/-- Every notification emitted by a sweep step is about the step's
repository, and every individual message in it is about a commit of the
processed batch. -/
theorem process_notifications {f : Int → Bool} {now : Int} {db : Database}
    {repo : String} {cs : List Commit} :
    ∀ n ∈ (process_new_commits f now db repo cs).2,
      n.repoFullName = repo ∧ ∀ c, OutMsg.individual c ∈ n.messages → c ∈ cs := by
  intro n hn
  cases hs : sortDesc cs with
  | nil =>
      have hcs : cs = [] := (sortDesc_eq_nil_iff cs).mp hs
      subst hcs
      rw [process_nil] at hn
      cases hn
  | cons latest rest =>
      rw [process_eq hs] at hn
      rcases List.mem_filterMap.mp hn with ⟨a, _, hfa⟩
      by_cases hfail : f a = true
      · rw [if_pos hfail] at hfa
        cases hfa
      · rw [if_neg hfail] at hfa
        have hEq := Option.some.inj hfa
        subst hEq
        refine ⟨rfl, fun c hc => ?_⟩
        dsimp only at hc
        have : c ∈ latest :: rest := mem_send_individual hc
        rw [← hs] at this
        exact (sortDesc_perm cs).mem_iff.mp this

/-- The candidates a detection pass actually processes: the fetch result
minus the seen-set. -/
def detected (remote : Remote) (now : Int) (db : Database) (repo branch : String) :
    List Commit :=
  (get_latest_commits (remote repo branch) (some (lower_bound db repo now))).filter
    (fun c => !(is_commit_logged db repo c.sha))

theorem check_repository_eq (remote : Remote) (f : Int → Bool) (now : Int)
    (db : Database) (repo branch : String) :
    check_repository remote f now db repo branch
      = if (detected remote now db repo branch).isEmpty then (db, [])
        else process_new_commits f now db repo (detected remote now db repo branch) := by
  unfold check_repository detected
  cases hfe : get_latest_commits (remote repo branch) (some (lower_bound db repo now)) with
  | nil => rfl
  | cons x xs => rfl

/-- A failed remote fetch leaves the database untouched and produces no
notifications for that repository this cycle. -/
theorem check_unreachable (remote : Remote) (f : Int → Bool) (now : Int)
    (db : Database) (repo branch : String)
    (h : (remote repo branch).reachable = false) :
    check_repository remote f now db repo branch = (db, []) := by
  have h0 : get_latest_commits (remote repo branch)
      (some (lower_bound db repo now)) = [] := by
    simp [get_latest_commits, h]
  rw [check_repository_eq]
  have : detected remote now db repo branch = [] := by
    unfold detected
    rw [h0]
    rfl
  rw [this]
  rfl

theorem logged_check_mono {db : Database} {r s : String} (remote : Remote)
    (f : Int → Bool) (now : Int) (repo branch : String)
    (h : is_commit_logged db r s = true) :
    is_commit_logged (check_repository remote f now db repo branch).1 r s = true := by
  rw [check_repository_eq]
  split
  · exact h
  · exact logged_process_mono f now repo _ h

/-- Every notification of a detection pass is about the checked repository,
carries only commits that came back from this cycle's fetch, and never a
commit that was already in the seen-set when the pass started. -/
theorem check_notifications (remote : Remote) (f : Int → Bool) (now : Int)
    (db : Database) (repo branch : String) :
    ∀ n ∈ (check_repository remote f now db repo branch).2,
      n.repoFullName = repo ∧
      ∀ c, OutMsg.individual c ∈ n.messages →
        c ∈ get_latest_commits (remote repo branch) (some (lower_bound db repo now)) ∧
        is_commit_logged db repo c.sha = false := by
  intro n hn
  rw [check_repository_eq] at hn
  split at hn
  · cases hn
  · obtain ⟨hrepo, hmsg⟩ := process_notifications n hn
    refine ⟨hrepo, fun c hc => ?_⟩
    have hd : c ∈ detected remote now db repo branch := hmsg c hc
    unfold detected at hd
    have := List.mem_filter.mp hd
    exact ⟨this.1, by simpa using this.2⟩

/-! ## Concrete fixtures (used by witnesses and counterexamples) -/

def mkCommit (sha : String) (date : Int) (repo : String) : Commit :=
  { sha := sha, message := "msg", authorName := "a", authorEmail := "a@x",
    date := date, url := "u", repoFullName := repo,
    added := 0, removed := 0, modified := 0 }

def emptyDb : Database := { users := [], repositories := [], commitHistory := [] }

def cA : Commit := mkCommit "aaaa" 5 "o/r"

def cB : Commit := mkCommit "bbbb" 5 "o/r"

def rowOne : RepoRow :=
  { chatId := 1, repoFullName := "o/r", repoUrl := "u",
    lastCommitSha := none, lastCheck := none, lastCommitDate := none, branch := "main" }

def dbOne : Database :=
  { users := [{ chatId := 1, username := none, language := "en" }],
    repositories := [rowOne], commitHistory := [] }

def seven : List Commit :=
  [mkCommit "c1" 1 "o/r", mkCommit "c2" 2 "o/r", mkCommit "c3" 3 "o/r",
   mkCommit "c4" 4 "o/r", mkCommit "c5" 5 "o/r", mkCommit "c6" 6 "o/r",
   mkCommit "c7" 7 "o/r"]

def three : List Commit :=
  [mkCommit "c1" 1 "o/r", mkCommit "c2" 2 "o/r", mkCommit "c3" 3 "o/r"]

def isIndividualMsg : OutMsg → Bool
  | .individual _ => true
  | .summary _ _ => false

def isSummaryMsg : OutMsg → Bool
  | .individual _ => false
  | .summary _ _ => true

/-! ## C3: per-subscriber batch cap -/

/-- C3: for a detection batch of `N` new commits, the notification step
produces, per subscriber, exactly 5 individually formatted commit messages
plus exactly one summary stating `N - 5` extra commits when `N > 5`, and
`N` individual messages with no summary when `N ≤ 5`. -/
theorem c3_per_batch_cap (commits : List Commit) (lang : Option String) :
    (5 < commits.length →
      ((send_commit_notification commits lang).filter isIndividualMsg).length = 5 ∧
      (send_commit_notification commits lang).filter isSummaryMsg
        = [OutMsg.summary commits.length (commits.length - 5)]) ∧
    (commits.length ≤ 5 →
      ((send_commit_notification commits lang).filter isIndividualMsg).length
          = commits.length ∧
      (send_commit_notification commits lang).filter isSummaryMsg = []) := by
  by_cases hemp : commits.isEmpty
  · have h0 : commits = [] := by simpa [List.isEmpty_iff] using hemp
    subst h0
    simp [send_commit_notification]
  · have hemp' : commits.isEmpty = false := by simpa using hemp
    constructor
    · intro h5
      unfold send_commit_notification
      rw [hemp', if_neg (by simp), if_pos h5]
      constructor
      · rw [List.filter_append, List.filter_map]
        have h1 : (isIndividualMsg ∘ OutMsg.individual) = fun _ : Commit => true := by
          funext c; rfl
        rw [h1, List.filter_true]
        simp [isIndividualMsg, List.length_take, Nat.min_eq_left (Nat.le_of_lt h5)]
      · rw [List.filter_append, List.filter_map]
        have h1 : (isSummaryMsg ∘ OutMsg.individual) = fun _ : Commit => false := by
          funext c; rfl
        rw [h1, List.filter_false]
        simp [isSummaryMsg]
    · intro h5
      unfold send_commit_notification
      rw [hemp', if_neg (by simp), if_neg (by omega)]
      constructor
      · rw [List.append_nil, List.filter_map]
        have h1 : (isIndividualMsg ∘ OutMsg.individual) = fun _ : Commit => true := by
          funext c; rfl
        rw [h1, List.filter_true]
        simp [List.length_take, Nat.min_eq_right h5]
      · rw [List.append_nil, List.filter_map]
        have h1 : (isSummaryMsg ∘ OutMsg.individual) = fun _ : Commit => false := by
          funext c; rfl
        rw [h1, List.filter_false]
        rfl

/-- Witness for C3 at a 7-commit batch (5 individual + summary of 2 extra)
and a 3-commit batch (3 individual, no summary). -/
theorem c3_per_batch_cap_witness :
    (((send_commit_notification seven none).filter isIndividualMsg).length = 5 ∧
      (send_commit_notification seven none).filter isSummaryMsg
        = [OutMsg.summary seven.length (seven.length - 5)]) ∧
    (((send_commit_notification three none).filter isIndividualMsg).length
        = three.length ∧
      (send_commit_notification three none).filter isSummaryMsg = []) :=
  ⟨(c3_per_batch_cap seven none).1 (by decide),
   (c3_per_batch_cap three none).2 (by decide)⟩

/-! ## C8: `log_commit` is not idempotent -/

/-- C8 counterexample: `log_commit` is a plain append — recording the same
commit twice leaves the history with two entries for the same
`(repository, hash)` pair, a different state than recording it once. -/
theorem c8_counterexample :
    log_commit (log_commit emptyDb cA) cA ≠ log_commit emptyDb cA ∧
    ((log_commit (log_commit emptyDb cA) cA).commitHistory.filter
        (fun r => decide (r.repoFullName = "o/r" ∧ r.commitSha = "aaaa"))).length = 2 := by
  decide

/-- C8 amended: recording an already-recorded commit appends a duplicate
row (the store does not deduplicate), but the derived seen-set membership
`is_commit_logged` is unchanged by the second recording. -/
theorem c8_amended_membership_idempotent (db : Database) (c : Commit) (r s : String) :
    (log_commit (log_commit db c) c).commitHistory
      = (log_commit db c).commitHistory ++ [commitRow c] ∧
    is_commit_logged (log_commit (log_commit db c) c) r s
      = is_commit_logged (log_commit db c) r s := by
  refine ⟨rfl, ?_⟩
  simp [is_commit_logged, log_commit, List.any_append, Bool.or_assoc, Bool.or_self]

/-! ## C9: repository state is per-subscriber, not repo-scoped -/

theorem add_user_repositories (db : Database) (chatId : Int) (u : Option String)
    (lang : String) :
    (add_user db chatId u lang).repositories = db.repositories := by
  unfold add_user
  split <;> rfl

theorem add_repository_repositories (db : Database) (chatId : Int)
    (repo url branch : String) (now : Int) :
    (add_repository db chatId repo url branch now).repositories
      = db.repositories.filter
          (fun r => !(decide (r.chatId = chatId ∧ r.repoFullName = repo)))
        ++ [{ chatId := chatId, repoFullName := repo, repoUrl := url,
              lastCommitSha := none, lastCheck := some now, lastCommitDate := none,
              branch := branch }] := by
  unfold add_repository
  dsimp only
  rw [add_user_repositories]

/-- C9 counterexample: after two different users subscribe to the same
repository there are two `repositories` rows for that repository identifier,
refuting "at most one monitored-repository row per repository". -/
theorem c9_counterexample :
    ((add_repository (add_repository emptyDb 1 "o/r" "u" "main" 100)
        2 "o/r" "u" "main" 200).repositories.filter
        (fun r => decide (r.repoFullName = "o/r"))).length = 2 ∧
    ¬ (((add_repository (add_repository emptyDb 1 "o/r" "u" "main" 100)
        2 "o/r" "u" "main" 200).repositories.filter
        (fun r => decide (r.repoFullName = "o/r"))).length ≤ 1) := by
  decide

/-- C9 amended: the uniqueness unit is the `(chat_id, repo_full_name)`
pair — after `add_repository` the subscriber has exactly one row for the
repository, and that row's watermark columns are reset to NULL; rows of
other subscribers of the same repository are untouched by the call. -/
theorem c9_amended_row_per_subscriber (db : Database) (chatId : Int)
    (repo url branch : String) (now : Int) :
    (add_repository db chatId repo url branch now).repositories.filter
        (fun r => decide (r.chatId = chatId ∧ r.repoFullName = repo))
      = [{ chatId := chatId, repoFullName := repo, repoUrl := url,
           lastCommitSha := none, lastCheck := some now, lastCommitDate := none,
           branch := branch }] ∧
    (add_repository db chatId repo url branch now).repositories.filter
        (fun r => decide (¬ r.chatId = chatId ∧ r.repoFullName = repo))
      = db.repositories.filter
          (fun r => decide (¬ r.chatId = chatId ∧ r.repoFullName = repo)) := by
  constructor
  · rw [add_repository_repositories]
    rw [List.filter_append, List.filter_filter]
    have h0 : db.repositories.filter (fun a =>
        decide (a.chatId = chatId ∧ a.repoFullName = repo) &&
          !decide (a.chatId = chatId ∧ a.repoFullName = repo)) = [] := by
      rw [List.filter_eq_nil_iff]
      intro a _
      simp [Bool.and_not_self]
    rw [h0]
    simp
  · rw [add_repository_repositories]
    rw [List.filter_append, List.filter_filter]
    have h1 : (List.filter (fun r => decide (¬ r.chatId = chatId ∧ r.repoFullName = repo))
        [{ chatId := chatId, repoFullName := repo, repoUrl := url,
           lastCommitSha := none, lastCheck := some now, lastCommitDate := none,
           branch := branch }] : List RepoRow) = [] := by
      simp
    rw [h1, List.append_nil]
    apply List.filter_congr
    intro r _
    by_cases hc : r.chatId = chatId
    · simp [hc]
    · by_cases hr : r.repoFullName = repo <;> simp [hc, hr]

/-! ## C2: persisted watermark and the tie-break -/

theorem get_last_commit_date_update {db : Database} {repo : String}
    (hrow : ∃ row ∈ db.repositories, row.repoFullName = repo)
    (sha : String) (d n : Int) :
    get_last_commit_date (update_last_commit db repo sha d n) repo = some d := by
  unfold get_last_commit_date
  rw [find?_name_update]
  obtain ⟨row, hmem, hname⟩ := hrow
  obtain ⟨row', hfind⟩ : ∃ row',
      db.repositories.find? (fun r => decide (r.repoFullName = repo)) = some row' := by
    have hsome : (db.repositories.find?
        (fun r => decide (r.repoFullName = repo))).isSome = true :=
      List.find?_isSome.mpr ⟨row, hmem, by simpa using hname⟩
    exact Option.isSome_iff_exists.mp hsome
  rw [hfind]
  have hp : row'.repoFullName = repo := by simpa using List.find?_some hfind
  simp [updRow, hp]

theorem stored_watermark_update {db : Database} {repo : String}
    (hrow : ∃ row ∈ db.repositories, row.repoFullName = repo)
    (sha : String) (d n : Int) :
    stored_watermark (update_last_commit db repo sha d n) repo = some (sha, d) := by
  unfold stored_watermark
  rw [find?_name_update]
  obtain ⟨row, hmem, hname⟩ := hrow
  obtain ⟨row', hfind⟩ : ∃ row',
      db.repositories.find? (fun r => decide (r.repoFullName = repo)) = some row' := by
    have hsome : (db.repositories.find?
        (fun r => decide (r.repoFullName = repo))).isSome = true :=
      List.find?_isSome.mpr ⟨row, hmem, by simpa using hname⟩
    exact Option.isSome_iff_exists.mp hsome
  rw [hfind]
  have hp : row'.repoFullName = repo := by simpa using List.find?_some hfind
  simp [updRow, hp]

/-- C2 counterexample: two commits with equal timestamps (`"aaaa"` and
`"bbbb"`).  The spec's tie-break (lexical hash order) picks `"bbbb"` on both
arrival orders, but the code persists whichever commit arrived first, so for
the arrival order `[aaaa, bbbb]` the persisted watermark differs from the
claimed one, and the persisted watermark depends on the remote's return
order for one and the same set of commits. -/
theorem c2_counterexample :
    stored_watermark (process_new_commits (fun _ => false) 100 dbOne "o/r" [cA, cB]).1 "o/r"
      = some ("aaaa", 5) ∧
    spec_watermark [cA, cB] = some ("bbbb", 5) ∧
    spec_watermark [cB, cA] = some ("bbbb", 5) ∧
    stored_watermark (process_new_commits (fun _ => false) 100 dbOne "o/r" [cB, cA]).1 "o/r"
      = some ("bbbb", 5) ∧
    List.Perm [cA, cB] [cB, cA] := by
  decide

/-- C2 amended: after a non-empty batch, the persisted watermark is the
batch commit of maximal timestamp — never an older commit, however the
remote ordered them — but a tie between equal timestamps is resolved by
arrival order (the stable descending sort keeps the first-returned of the
newest commits), not by lexical hash order. -/
theorem c2_amended_watermark_newest (failures : Int → Bool) (now : Int)
    (db : Database) (repo : String) (commits : List Commit)
    (hne : commits ≠ [])
    (hrow : ∃ row ∈ db.repositories, row.repoFullName = repo) :
    ∃ latest, latest ∈ commits ∧ (∀ c ∈ commits, c.date ≤ latest.date) ∧
      (sortDesc commits).head? = some latest ∧
      stored_watermark (process_new_commits failures now db repo commits).1 repo
        = some (latest.sha, latest.date) := by
  cases hs : sortDesc commits with
  | nil => exact absurd ((sortDesc_eq_nil_iff commits).mp hs) hne
  | cons latest rest =>
      have hmemS : latest ∈ commits := by
        have hmem : latest ∈ sortDesc commits := by
          rw [hs]; exact List.mem_cons_self _ _
        exact (sortDesc_perm commits).mem_iff.mp hmem
      have hstored : stored_watermark
          (process_new_commits failures now db repo commits).1 repo
            = some (latest.sha, latest.date) := by
        rw [process_eq hs]
        dsimp only
        apply stored_watermark_update
        obtain ⟨row, hmem, hname⟩ := hrow
        exact ⟨row, by rw [foldl_log_repositories]; exact hmem, hname⟩
      exact ⟨latest, hmemS, sortDesc_head_max hs, rfl, hstored⟩

/-- Witness for the amended C2 at a concrete tied batch. -/
theorem c2_amended_watermark_newest_witness :
    ∃ latest, latest ∈ [cA, cB] ∧ (∀ c ∈ [cA, cB], c.date ≤ latest.date) ∧
      (sortDesc [cA, cB]).head? = some latest ∧
      stored_watermark (process_new_commits (fun _ => false) 100 dbOne "o/r" [cA, cB]).1 "o/r"
        = some (latest.sha, latest.date) :=
  c2_amended_watermark_newest (fun _ => false) 100 dbOne "o/r" [cA, cB]
    (by decide) ⟨rowOne, by decide, by decide⟩

/-! ## C6: per-subscriber delivery failures are isolated -/

theorem get_repo_subscribers_foldl_log (cs : List Commit) (db : Database) (q : String) :
    get_repo_subscribers (cs.foldl log_commit db) q = get_repo_subscribers db q := by
  unfold get_repo_subscribers
  rw [foldl_log_repositories]

/-- C6: a delivery failure for one subscriber does not prevent delivery to
the remaining subscribers of the same repository, does not abort the fan-out
loop, and the database writes (commit log and watermark update) are exactly
the ones performed when no delivery fails — nothing is rolled back. -/
theorem c6_subscriber_isolation (failures : Int → Bool) (now : Int) (db : Database)
    (repo : String) (commits : List Commit) (X Y : Int)
    (hX : failures X = true) (hY : failures Y = false)
    (hYsub : Y ∈ get_repo_subscribers db repo)
    (hne : commits ≠ []) :
    (∃ n ∈ (process_new_commits failures now db repo commits).2, n.chatId = Y) ∧
    (∀ n ∈ (process_new_commits failures now db repo commits).2, n.chatId ≠ X) ∧
    (process_new_commits failures now db repo commits).1
      = (process_new_commits (fun _ => false) now db repo commits).1 := by
  refine ⟨?_, ?_, process_fst_indep _ _ _ _ _ _⟩
  · cases hs : sortDesc commits with
    | nil => exact absurd ((sortDesc_eq_nil_iff commits).mp hs) hne
    | cons latest rest =>
        rw [process_eq hs]
        dsimp only
        have hYsub2 : Y ∈ get_repo_subscribers
            (update_last_commit ((latest :: rest).foldl log_commit db)
              repo latest.sha latest.date now) repo := by
          rw [get_repo_subscribers_update, get_repo_subscribers_foldl_log]
          exact hYsub
        refine ⟨{ chatId := Y, repoFullName := repo,
                  messages := send_commit_notification (latest :: rest)
                    (get_user_language
                      (update_last_commit ((latest :: rest).foldl log_commit db)
                        repo latest.sha latest.date now) Y) },
                List.mem_filterMap.mpr ⟨Y, hYsub2, ?_⟩, rfl⟩
        rw [if_neg (by simp [hY])]
  · intro n hn
    cases hs : sortDesc commits with
    | nil => exact absurd ((sortDesc_eq_nil_iff commits).mp hs) hne
    | cons latest rest =>
        rw [process_eq hs] at hn
        dsimp only at hn
        rcases List.mem_filterMap.mp hn with ⟨a, _, hfa⟩
        by_cases hfail : failures a = true
        · rw [if_pos hfail] at hfa
          cases hfa
        · rw [if_neg hfail] at hfa
          have hEq := Option.some.inj hfa
          subst hEq
          intro hXeq
          dsimp only at hXeq
          rw [hXeq] at hfail
          exact hfail hX

def rowTwo : RepoRow :=
  { chatId := 2, repoFullName := "o/r", repoUrl := "u",
    lastCommitSha := none, lastCheck := none, lastCommitDate := none, branch := "main" }

def dbTwo : Database :=
  { users := [{ chatId := 1, username := none, language := "en" },
              { chatId := 2, username := none, language := "fa" }],
    repositories := [rowOne, rowTwo], commitHistory := [] }

def failOne : Int → Bool := fun i => decide (i = 1)

/-- Witness for C6: subscriber 1's delivery fails, subscriber 2 still
receives, and the database is the same as in the failure-free run. -/
theorem c6_subscriber_isolation_witness :
    (∃ n ∈ (process_new_commits failOne 100 dbTwo "o/r" [cA]).2, n.chatId = 2) ∧
    (∀ n ∈ (process_new_commits failOne 100 dbTwo "o/r" [cA]).2, n.chatId ≠ 1) ∧
    (process_new_commits failOne 100 dbTwo "o/r" [cA]).1
      = (process_new_commits (fun _ => false) 100 dbTwo "o/r" [cA]).1 :=
  c6_subscriber_isolation failOne 100 dbTwo "o/r" [cA] 1 2
    (by decide) (by decide) (by decide) (by decide)

/-! ## C5: first-check 24-hour lookback window -/

theorem mem_fetch_since {r : RemoteRepo} {s : Int} {c : Commit}
    (hc : c ∈ get_latest_commits r (some s)) : c ∈ r.history ∧ s ≤ c.date := by
  unfold get_latest_commits at hc
  split at hc
  · have h1 := List.mem_of_mem_take hc
    have h2 := List.mem_filter.mp h1
    exact ⟨h2.1, by simpa using h2.2⟩
  · cases hc

/-- C5: for a repository never checked before (no stored last commit date),
the detection pass requests commits with the lower bound `now - 24h`
(86400 s); every commit the remote call returns is dated at or after that
bound, and every individually notified commit is dated at or after that
bound — older commits are never reported. -/
theorem c5_first_check_window (remote : Remote) (failures : Int → Bool) (now : Int)
    (db : Database) (repo branch : String)
    (hfirst : get_last_commit_date db repo = none) :
    lower_bound db repo now = now - 86400 ∧
    (∀ c ∈ get_latest_commits (remote repo branch) (some (now - 86400)),
      now - 86400 ≤ c.date) ∧
    (∀ n ∈ (check_repository remote failures now db repo branch).2,
      ∀ c, OutMsg.individual c ∈ n.messages → now - 86400 ≤ c.date) := by
  have hlb : lower_bound db repo now = now - 86400 := by
    unfold lower_bound
    rw [hfirst]
  refine ⟨hlb, fun c hc => (mem_fetch_since hc).2, ?_⟩
  intro n hn c hc
  have h2 := (check_notifications remote failures now db repo branch n hn).2 c hc
  rw [hlb] at h2
  exact (mem_fetch_since h2.1).2

def cC : Commit := mkCommit "cccc" 50000 "o/r"

def remoteOne : Remote := fun _ _ => { reachable := true, history := [cC] }

/-- Witness for C5 at a never-checked repository and one in-window commit. -/
theorem c5_first_check_window_witness :
    lower_bound dbOne "o/r" 100000 = 100000 - 86400 ∧
    (∀ c ∈ get_latest_commits (remoteOne "o/r" "main") (some (100000 - 86400)),
      (100000 : Int) - 86400 ≤ c.date) ∧
    (∀ n ∈ (check_repository remoteOne failOne 100000 dbOne "o/r" "main").2,
      ∀ c, OutMsg.individual c ∈ n.messages → (100000 : Int) - 86400 ≤ c.date) :=
  c5_first_check_window remoteOne failOne 100000 dbOne "o/r" "main" (by decide)

/-! ## C7: a failed remote fetch is isolated to its repository -/

theorem sweepStep_unreachable (remote : Remote) (f : Int → Bool) (now : Int)
    (acc : Database × List Notification) (mr : MonitoredRepo)
    (h : (remote mr.repoFullName mr.branch).reachable = false) :
    sweepStep remote f now acc mr = acc := by
  unfold sweepStep
  rw [check_unreachable _ _ _ _ _ _ h]
  simp

/-- Unreachable repositories contribute nothing to a sweep: the sweep is
the sweep over the reachable repositories alone. -/
theorem sweep_filter_reachable (remote : Remote) (f : Int → Bool) (now : Int) :
    ∀ (repos : List MonitoredRepo) (acc : Database × List Notification),
      repos.foldl (sweepStep remote f now) acc
        = (repos.filter
            (fun mr => (remote mr.repoFullName mr.branch).reachable)).foldl
            (sweepStep remote f now) acc := by
  intro repos
  induction repos with
  | nil => intro acc; rfl
  | cons mr rest ih =>
      intro acc
      by_cases h : (remote mr.repoFullName mr.branch).reachable = true
      · have hfc : (mr :: rest).filter
            (fun x => (remote x.repoFullName x.branch).reachable)
            = mr :: rest.filter (fun x => (remote x.repoFullName x.branch).reachable) :=
          List.filter_cons_of_pos h
        rw [hfc, List.foldl_cons, List.foldl_cons]
        exact ih _
      · have hfc : (mr :: rest).filter
            (fun x => (remote x.repoFullName x.branch).reachable)
            = rest.filter (fun x => (remote x.repoFullName x.branch).reachable) :=
          List.filter_cons_of_neg h
        rw [hfc, List.foldl_cons]
        rw [sweepStep_unreachable _ _ _ _ _ (by simpa using h)]
        exact ih acc

theorem filter_name_update_ne {A repo : String} (hne : A ≠ repo) (db : Database)
    (sha : String) (d n : Int) :
    (update_last_commit db repo sha d n).repositories.filter
        (fun r => decide (r.repoFullName = A))
      = db.repositories.filter (fun r => decide (r.repoFullName = A)) := by
  rw [update_repositories_eq_map, List.filter_map]
  have hp : ((fun r => decide (r.repoFullName = A)) ∘ updRow repo sha d n)
      = (fun r : RepoRow => decide (r.repoFullName = A)) := by
    funext r
    simp [Function.comp, updRow_repoFullName]
  rw [hp]
  have hid : ∀ r ∈ db.repositories.filter (fun r => decide (r.repoFullName = A)),
      updRow repo sha d n r = r := by
    intro r hr
    have hname : r.repoFullName = A := by
      simpa using (List.mem_filter.mp hr).2
    unfold updRow
    rw [if_neg (by rw [hname]; exact fun h => hne h)]
  rw [List.map_congr_left hid]
  simp

/-- A detection pass on one repository never touches the `repositories`
rows of a differently named repository. -/
theorem check_other_rows {A : String} (remote : Remote) (f : Int → Bool) (now : Int)
    (db : Database) (repo branch : String) (hne : A ≠ repo) :
    (check_repository remote f now db repo branch).1.repositories.filter
        (fun r => decide (r.repoFullName = A))
      = db.repositories.filter (fun r => decide (r.repoFullName = A)) := by
  rw [check_repository_eq]
  split
  · rfl
  · cases hs : sortDesc (detected remote now db repo branch) with
    | nil =>
        rw [(sortDesc_eq_nil_iff _).mp hs, process_nil]
    | cons latest rest =>
        rw [process_eq hs]
        dsimp only
        rw [filter_name_update_ne hne, foldl_log_repositories]

theorem sweep_rows_unreachable {A : String} (remote : Remote) (f : Int → Bool)
    (now : Int) (hA : ∀ br, (remote A br).reachable = false) :
    ∀ (repos : List MonitoredRepo) (acc : Database × List Notification),
      (repos.foldl (sweepStep remote f now) acc).1.repositories.filter
          (fun r => decide (r.repoFullName = A))
        = acc.1.repositories.filter (fun r => decide (r.repoFullName = A)) := by
  intro repos
  induction repos with
  | nil => intro acc; rfl
  | cons mr rest ih =>
      intro acc
      rw [List.foldl_cons, ih]
      by_cases hmr : mr.repoFullName = A
      · rw [sweepStep_unreachable _ _ _ _ _ (by rw [hmr]; exact hA mr.branch)]
      · unfold sweepStep
        dsimp only
        exact check_other_rows remote f now acc.1 mr.repoFullName mr.branch
          (fun h => hmr h.symm)

/-- C7: when the remote fetch for one repository fails, that repository's
detection step returns no new commits and leaves the database (in
particular its stored watermark rows) untouched; after the whole sweep the
failing repository's rows are exactly as before, and the sweep is the same
sweep as over the reachable repositories alone — every other repository is
still processed and can still advance its watermark. -/
theorem c7_fetch_failure_isolated (remote : Remote) (failures : Int → Bool)
    (now : Int) (db : Database) (A : String)
    (hA : ∀ br, (remote A br).reachable = false) :
    (∀ br, check_repository remote failures now db A br = (db, [])) ∧
    ((check_all_repositories remote failures now db).1.repositories.filter
        (fun r => decide (r.repoFullName = A))
      = db.repositories.filter (fun r => decide (r.repoFullName = A))) ∧
    check_all_repositories remote failures now db
      = sweep remote failures now
          ((get_all_monitored_repos db).filter
            (fun mr => (remote mr.repoFullName mr.branch).reachable)) db := by
  refine ⟨fun br => check_unreachable _ _ _ _ _ _ (hA br), ?_, ?_⟩
  · unfold check_all_repositories sweep
    exact sweep_rows_unreachable remote failures now hA _ _
  · unfold check_all_repositories sweep
    exact sweep_filter_reachable remote failures now _ _

def rowA : RepoRow :=
  { chatId := 1, repoFullName := "a/r", repoUrl := "ua",
    lastCommitSha := none, lastCheck := none, lastCommitDate := none, branch := "main" }

def dbAB : Database :=
  { users := [{ chatId := 1, username := none, language := "en" }],
    repositories := [rowA, rowOne], commitHistory := [] }

def remoteAB : Remote := fun repo _ =>
  if repo = "a/r" then { reachable := false, history := [] }
  else { reachable := true, history := [cC] }

/-- Witness for C7: repository `a/r` is unreachable, repository `o/r` is
reachable; the sweep over both equals the sweep over `o/r` alone and leaves
the rows of `a/r` untouched. -/
theorem c7_fetch_failure_isolated_witness :
    (∀ br, check_repository remoteAB failOne 100000 dbAB "a/r" br = (dbAB, [])) ∧
    ((check_all_repositories remoteAB failOne 100000 dbAB).1.repositories.filter
        (fun r => decide (r.repoFullName = "a/r"))
      = dbAB.repositories.filter (fun r => decide (r.repoFullName = "a/r"))) ∧
    check_all_repositories remoteAB failOne 100000 dbAB
      = sweep remoteAB failOne 100000
          ((get_all_monitored_repos dbAB).filter
            (fun mr => (remoteAB mr.repoFullName mr.branch).reachable)) dbAB :=
  c7_fetch_failure_isolated remoteAB failOne 100000 dbAB "a/r"
    (fun _ => by simp [remoteAB])

/-! ## C4: commits are persisted before the watermark advances -/

theorem foldl_applyOp_log (cs : List Commit) (db : Database) :
    List.foldl (fun d c => applyOp d (DbOp.logOne c)) db cs = cs.foldl log_commit db := by
  induction cs generalizing db with
  | nil => rfl
  | cons c cs ih => exact ih (log_commit db c)

theorem process_fst_eq_runOps (f : Int → Bool) (now : Int) (db : Database)
    (repo : String) (cs : List Commit) :
    (process_new_commits f now db repo cs).1
      = runOps db (process_new_commits_ops now repo cs) := by
  cases hs : sortDesc cs with
  | nil =>
      have hcs : cs = [] := (sortDesc_eq_nil_iff cs).mp hs
      subst hcs
      rfl
  | cons latest rest =>
      rw [process_eq hs]
      unfold process_new_commits_ops
      rw [hs]
      dsimp only
      unfold runOps
      rw [List.foldl_append, List.foldl_map, foldl_applyOp_log]
      rfl

/-- C4: the database writes of `process_new_commits` are exactly one
`log_commit` per batch commit followed by the single watermark update — in
that order.  Consequently, at every intermediate write state in which the
watermark update has already executed, every commit of the batch is already
durably recorded in the commit history. -/
theorem c4_log_before_watermark (failures : Int → Bool) (now : Int) (db : Database)
    (repo : String) (commits : List Commit)
    (hnames : ∀ c ∈ commits, c.repoFullName = repo) :
    (process_new_commits failures now db repo commits).1
        = runOps db (process_new_commits_ops now repo commits) ∧
    ∀ p s, process_new_commits_ops now repo commits = p ++ s →
      (∃ r sh d n, DbOp.setWatermark r sh d n ∈ p) →
      ∀ c ∈ commits, is_commit_logged (runOps db p) repo c.sha = true := by
  refine ⟨process_fst_eq_runOps failures now db repo commits, ?_⟩
  intro p s hps hwm c hc
  unfold process_new_commits_ops at hps
  cases hs : sortDesc commits with
  | nil =>
      have hcs : commits = [] := (sortDesc_eq_nil_iff commits).mp hs
      subst hcs
      cases hc
  | cons latest rest =>
      rw [hs] at hps
      dsimp only at hps
      have hnotlog : ∀ (l : List Commit),
          (∃ r sh d n, DbOp.setWatermark r sh d n ∈ l.map DbOp.logOne) → False := by
        intro l hex
        obtain ⟨r, sh, d, n, hmem⟩ := hex
        rcases List.mem_map.mp hmem with ⟨x, _, hx⟩
        cases hx
      rcases List.append_eq_append_iff.mp hps.symm with ⟨a', ha1, _⟩ | ⟨c', hc1, hc2⟩
      · -- p is an initial segment of the log ops: no watermark op can be in it
        exfalso
        obtain ⟨r, sh, d, n, hmem⟩ := hwm
        have : DbOp.setWatermark r sh d n ∈ (latest :: rest).map DbOp.logOne := by
          rw [ha1]
          exact List.mem_append_left _ hmem
        exact hnotlog _ ⟨r, sh, d, n, this⟩
      · -- p = logs ++ c' with [watermark] = c' ++ s
        cases c' with
        | nil =>
            exfalso
            rw [List.append_nil] at hc1
            rw [hc1] at hwm
            exact hnotlog _ hwm
        | cons w t =>
            obtain ⟨hw1, hw2⟩ := List.cons.inj hc2
            obtain ⟨ht1, _⟩ := List.append_eq_nil.mp hw2.symm
            subst ht1
            rw [← hw1] at hc1
            rw [hc1]
            unfold runOps
            rw [List.foldl_append, List.foldl_map, foldl_applyOp_log]
            show is_commit_logged
              (update_last_commit ((latest :: rest).foldl log_commit db)
                repo latest.sha latest.date now) repo c.sha = true
            rw [is_commit_logged_update]
            have hcmem : c ∈ latest :: rest := by
              rw [← hs]
              exact (sortDesc_perm commits).mem_iff.mpr hc
            exact is_commit_logged_foldl_mem _ db c hcmem (hnames c hc)

/-- Witness for C4: a one-commit batch; after the full op list (which ends
with the watermark update) the commit is recorded. -/
theorem c4_log_before_watermark_witness :
    (process_new_commits failOne 100 dbOne "o/r" [cC]).1
        = runOps dbOne (process_new_commits_ops 100 "o/r" [cC]) ∧
    ∀ p s, process_new_commits_ops 100 "o/r" [cC] = p ++ s →
      (∃ r sh d n, DbOp.setWatermark r sh d n ∈ p) →
      ∀ c ∈ [cC], is_commit_logged (runOps dbOne p) "o/r" c.sha = true :=
  c4_log_before_watermark failOne 100 dbOne "o/r" [cC] (by decide)

/-! ## C1: the seen-set prevents re-notification -/

theorem lower_bound_some {db : Database} {repo : String} {d : Int} (now : Int)
    (h : get_last_commit_date db repo = some d) : lower_bound db repo now = d := by
  unfold lower_bound
  rw [h]

theorem lower_bound_none {db : Database} {repo : String} (now : Int)
    (h : get_last_commit_date db repo = none) : lower_bound db repo now = now - 86400 := by
  unfold lower_bound
  rw [h]

/-- On a history sorted newest-first, the `since` filter is a `takeWhile`. -/
theorem filter_since_takeWhile (H : List Commit) (s : Int)
    (hsort : H.Pairwise (fun a b => b.date ≤ a.date)) :
    H.filter (fun c : Commit => decide (s ≤ c.date))
      = H.takeWhile (fun c : Commit => decide (s ≤ c.date)) := by
  induction H with
  | nil => rfl
  | cons x xs ih =>
      have hx := List.pairwise_cons.mp hsort
      by_cases hpx : s ≤ x.date
      · rw [List.filter_cons_of_pos (by simpa using hpx),
          List.takeWhile_cons_of_pos (by simpa using hpx)]
        rw [ih hx.2]
      · rw [List.filter_cons_of_neg (by simpa using hpx),
          List.takeWhile_cons_of_neg (by simpa using hpx)]
        rw [List.filter_eq_nil_iff]
        intro a ha
        simp only [decide_eq_true_eq]
        intro hsa
        exact hpx (le_trans hsa (hx.1 a ha))

theorem mem_take_takeWhile_mono {s t : Int} (hst : s ≤ t) :
    ∀ (l : List Commit) (n : Nat) (x : Commit),
      x ∈ (l.takeWhile (fun c : Commit => decide (t ≤ c.date))).take n →
      x ∈ (l.takeWhile (fun c : Commit => decide (s ≤ c.date))).take n := by
  intro l
  induction l with
  | nil => intro n x h; simp at h
  | cons y ys ih =>
      intro n x h
      by_cases hty : t ≤ y.date
      · have hsy : s ≤ y.date := le_trans hst hty
        rw [List.takeWhile_cons_of_pos (by simpa using hty)] at h
        rw [List.takeWhile_cons_of_pos (by simpa using hsy)]
        cases n with
        | zero => simp at h
        | succ m =>
            rw [List.take_succ_cons] at h ⊢
            rcases List.mem_cons.mp h with rfl | h'
            · exact List.mem_cons_self _ _
            · exact List.mem_cons_of_mem _ (ih m x h')
      · rw [List.takeWhile_cons_of_neg (by simpa using hty)] at h
        simp at h

/-- On a sorted history, raising the `since` bound only shrinks the fetched
page: anything the higher bound returns, the lower bound returned too. -/
theorem fetch_mono {r : RemoteRepo} {s t : Int}
    (hsort : r.history.Pairwise (fun a b => b.date ≤ a.date)) (hst : s ≤ t)
    {x : Commit} (hx : x ∈ get_latest_commits r (some t)) :
    x ∈ get_latest_commits r (some s) := by
  unfold get_latest_commits at hx ⊢
  split at hx
  · rename_i hr
    rw [if_pos hr]
    dsimp only at hx ⊢
    rw [filter_since_takeWhile r.history t hsort] at hx
    rw [filter_since_takeWhile r.history s hsort]
    exact mem_take_takeWhile_mono hst r.history 20 x hx
  · cases hx

theorem lower_bound_le_of_le {db : Database} {repo : String} {now now2 : Int}
    (hnow : now ≤ now2) : lower_bound db repo now ≤ lower_bound db repo now2 := by
  cases hgd : get_last_commit_date db repo with
  | some d => rw [lower_bound_some now hgd, lower_bound_some now2 hgd]
  | none =>
      rw [lower_bound_none now hgd, lower_bound_none now2 hgd]
      omega

/-- After a detection pass, everything a second fetch from the same remote
(at the new lower bound) can return is already in the seen-set. -/
theorem second_sweep_all_logged (remote : Remote) (f1 : Int → Bool)
    (now now2 : Int) (db : Database) (repo branch : String)
    (hsort : (remote repo branch).history.Pairwise (fun a b => b.date ≤ a.date))
    (hnames : ∀ c ∈ (remote repo branch).history, c.repoFullName = repo)
    (hrow : ∃ row ∈ db.repositories, row.repoFullName = repo)
    (hnow : now ≤ now2) :
    ∀ x ∈ get_latest_commits (remote repo branch)
        (some (lower_bound (check_repository remote f1 now db repo branch).1 repo now2)),
      is_commit_logged (check_repository remote f1 now db repo branch).1 repo x.sha
        = true := by
  intro x hx
  rw [check_repository_eq] at hx ⊢
  by_cases hdet : (detected remote now db repo branch).isEmpty
  · rw [if_pos hdet] at hx ⊢
    dsimp only at hx ⊢
    have hdet' : detected remote now db repo branch = [] := by simpa using hdet
    have hall : ∀ a ∈ get_latest_commits (remote repo branch)
        (some (lower_bound db repo now)), is_commit_logged db repo a.sha = true := by
      intro a ha
      have := List.filter_eq_nil_iff.mp hdet' a ha
      simpa using this
    exact hall x (fetch_mono hsort (lower_bound_le_of_le hnow) hx)
  · rw [if_neg hdet] at hx ⊢
    cases hs : sortDesc (detected remote now db repo branch) with
    | nil =>
        exfalso
        have := (sortDesc_eq_nil_iff _).mp hs
        rw [this] at hdet
        exact hdet rfl
    | cons latest rest =>
        rw [process_eq hs] at hx ⊢
        dsimp only at hx ⊢
        have hrow1 : ∃ row ∈ ((latest :: rest).foldl log_commit db).repositories,
            row.repoFullName = repo := by
          obtain ⟨row, hmem, hname⟩ := hrow
          exact ⟨row, by rw [foldl_log_repositories]; exact hmem, hname⟩
        have hgd1 : get_last_commit_date
            (update_last_commit ((latest :: rest).foldl log_commit db)
              repo latest.sha latest.date now) repo = some latest.date :=
          get_last_commit_date_update hrow1 latest.sha latest.date now
        rw [lower_bound_some now2 hgd1] at hx
        have hlatest : latest ∈ detected remote now db repo branch := by
          have : latest ∈ sortDesc (detected remote now db repo branch) := by
            rw [hs]; exact List.mem_cons_self _ _
          exact (sortDesc_perm _).mem_iff.mp this
        have hlatestF : latest ∈ get_latest_commits (remote repo branch)
            (some (lower_bound db repo now)) := (List.mem_filter.mp hlatest).1
        have hlb1 : lower_bound db repo now ≤ latest.date :=
          (mem_fetch_since hlatestF).2
        have hxF : x ∈ get_latest_commits (remote repo branch)
            (some (lower_bound db repo now)) := fetch_mono hsort hlb1 hx
        rw [is_commit_logged_update]
        by_cases hlg : is_commit_logged db repo x.sha = true
        · exact is_commit_logged_foldl_mono _ hlg
        · have hlg' : is_commit_logged db repo x.sha = false := by simpa using hlg
          have hxd : x ∈ detected remote now db repo branch := by
            unfold detected
            exact List.mem_filter.mpr ⟨hxF, by simp [hlg']⟩
          have hxs : x ∈ latest :: rest := by
            rw [← hs]
            exact (sortDesc_perm _).mem_iff.mpr hxd
          exact is_commit_logged_foldl_mem _ db x hxs
            (hnames x (mem_fetch_since hxF).1)

/-- C1: a commit hash already recorded in the seen-set is never passed to
the formatter or delivery again — no individual message of a detection pass
carries it — and a second detection pass over the same repository with the
same remote data (same or later clock) produces no notifications at all. -/
theorem c1_seen_set_no_renotification (remote : Remote) (f1 f2 : Int → Bool)
    (now now2 : Int) (db : Database) (repo branch h : String)
    (hlogged : is_commit_logged db repo h = true)
    (hsort : (remote repo branch).history.Pairwise (fun a b => b.date ≤ a.date))
    (hnames : ∀ c ∈ (remote repo branch).history, c.repoFullName = repo)
    (hrow : ∃ row ∈ db.repositories, row.repoFullName = repo)
    (hnow : now ≤ now2) :
    (∀ n ∈ (check_repository remote f1 now db repo branch).2,
      ∀ c, OutMsg.individual c ∈ n.messages → c.sha ≠ h) ∧
    (check_repository remote f2 now2
        (check_repository remote f1 now db repo branch).1 repo branch).2 = [] := by
  constructor
  · intro n hn c hc
    have h2 := (check_notifications remote f1 now db repo branch n hn).2 c hc
    intro hsha
    rw [hsha] at h2
    rw [hlogged] at h2
    cases h2.2
  · have hall := second_sweep_all_logged remote f1 now now2 db repo branch
      hsort hnames hrow hnow
    have hdet2 : detected remote now2
        (check_repository remote f1 now db repo branch).1 repo branch = [] := by
      unfold detected
      rw [List.filter_eq_nil_iff]
      intro a ha
      simp [hall a ha]
    rw [check_repository_eq]
    rw [hdet2]
    rfl

def cD : Commit := mkCommit "dddd" 60000 "o/r"

def remoteSorted : Remote := fun _ _ => { reachable := true, history := [cD, cC] }

def cE : Commit := mkCommit "eeee" 40000 "o/r"

def dbLogged : Database :=
  { users := [{ chatId := 1, username := none, language := "en" }],
    repositories := [rowOne], commitHistory := [commitRow cE] }

/-- Witness for C1: hash `"eeee"` is in the seen-set; no message of the
sweep carries it, and the immediately repeated sweep is silent. -/
theorem c1_seen_set_no_renotification_witness :
    (∀ n ∈ (check_repository remoteSorted failOne 100000 dbLogged "o/r" "main").2,
      ∀ c, OutMsg.individual c ∈ n.messages → c.sha ≠ "eeee") ∧
    (check_repository remoteSorted failOne 100000
        (check_repository remoteSorted failOne 100000 dbLogged "o/r" "main").1
        "o/r" "main").2 = [] :=
  c1_seen_set_no_renotification remoteSorted failOne failOne 100000 100000
    dbLogged "o/r" "main" "eeee" (by decide) (by decide) (by decide)
    ⟨rowOne, by decide, by decide⟩ (by decide)

/-! ## C10: the add command seeds the seen-set with the branch head -/

theorem update_rows_watermark (db : Database) (repo sha : String) (d n : Int) :
    ∀ r ∈ (update_last_commit db repo sha d n).repositories,
      r.repoFullName = repo →
      r.lastCommitSha = some sha ∧ r.lastCommitDate = some d := by
  intro r hr hname
  rw [update_repositories_eq_map] at hr
  rcases List.mem_map.mp hr with ⟨r0, _, rfl⟩
  by_cases h0 : r0.repoFullName = repo
  · unfold updRow
    rw [if_pos h0]
    exact ⟨rfl, rfl⟩
  · exfalso
    rw [updRow_repoFullName] at hname
    exact h0 hname

/-- Folding the sweep over any repository list preserves a seen-set
membership and never emits an individual message for a hash that was in the
seen-set when the fold reached the corresponding repository. -/
theorem sweep_preserve_no_renotify (remote2 : Remote) (f : Int → Bool) (now' : Int)
    {repo h : String} :
    ∀ (repos : List MonitoredRepo) (acc : Database × List Notification),
      is_commit_logged acc.1 repo h = true →
      (∀ n ∈ acc.2, n.repoFullName = repo →
        ∀ c, OutMsg.individual c ∈ n.messages → c.sha ≠ h) →
      is_commit_logged (repos.foldl (sweepStep remote2 f now') acc).1 repo h = true ∧
      ∀ n ∈ (repos.foldl (sweepStep remote2 f now') acc).2,
        n.repoFullName = repo → ∀ c, OutMsg.individual c ∈ n.messages → c.sha ≠ h := by
  intro repos
  induction repos with
  | nil => intro acc h1 h2; exact ⟨h1, h2⟩
  | cons mr rest ih =>
      intro acc h1 h2
      rw [List.foldl_cons]
      apply ih
      · unfold sweepStep
        dsimp only
        exact logged_check_mono _ _ _ _ _ h1
      · unfold sweepStep
        dsimp only
        intro n hn
        rcases List.mem_append.mp hn with hn | hn
        · exact h2 n hn
        · intro hrep c hc
          have hcn := check_notifications remote2 f now' acc.1
            mr.repoFullName mr.branch n hn
          have hmr : mr.repoFullName = repo := by
            rw [← hcn.1]; exact hrep
          have hlf := (hcn.2 c hc).2
          rw [hmr] at hlf
          intro hsha
          rw [hsha] at hlf
          rw [h1] at hlf
          cases hlf

/-- C10: when the add command succeeds and the remote returns at least one
commit, the first returned commit (the branch head) is logged into the
commit history and set as the watermark of every row of that repository at
subscription time; and since the seen-set only ever grows during sweeps, no
later sweep emits an individual message for that commit. -/
theorem c10_add_head_never_notified (remote : Remote) (now : Int) (db : Database)
    (chatId : Int) (repo url branch : String) (latest : Commit) (rest : List Commit)
    (hfetch : get_latest_commits (remote repo branch) none = latest :: rest)
    (hname : latest.repoFullName = repo) :
    is_commit_logged (handle_add remote now db chatId repo url branch) repo latest.sha
        = true ∧
    (∀ r ∈ (handle_add remote now db chatId repo url branch).repositories,
      r.repoFullName = repo →
      r.lastCommitSha = some latest.sha ∧ r.lastCommitDate = some latest.date) ∧
    (∀ (remote2 : Remote) (f : Int → Bool) (now' : Int) (db' : Database),
      is_commit_logged db' repo latest.sha = true →
      is_commit_logged (check_all_repositories remote2 f now' db').1 repo latest.sha
          = true ∧
      ∀ n ∈ (check_all_repositories remote2 f now' db').2,
        n.repoFullName = repo →
        ∀ c, OutMsg.individual c ∈ n.messages → c.sha ≠ latest.sha) := by
  have hha : handle_add remote now db chatId repo url branch
      = log_commit (update_last_commit (add_repository db chatId repo url branch now)
          repo latest.sha latest.date now) latest := by
    unfold handle_add
    rw [hfetch]
  refine ⟨?_, ?_, ?_⟩
  · rw [hha]
    exact is_commit_logged_log_self _ hname
  · rw [hha]
    intro r hr hrname
    exact update_rows_watermark _ repo latest.sha latest.date now r hr hrname
  · intro remote2 f now' db' hl
    unfold check_all_repositories sweep
    exact sweep_preserve_no_renotify remote2 f now' (get_all_monitored_repos db')
      (db', []) hl (by intro n hn; cases hn)

/-- Witness for C10: adding `o/r` with one remote commit `cC` logs it and
sets it as the watermark. -/
theorem c10_add_head_never_notified_witness :
    is_commit_logged (handle_add remoteOne 100 emptyDb 1 "o/r" "u" "main") "o/r" cC.sha
        = true ∧
    (∀ r ∈ (handle_add remoteOne 100 emptyDb 1 "o/r" "u" "main").repositories,
      r.repoFullName = "o/r" →
      r.lastCommitSha = some cC.sha ∧ r.lastCommitDate = some cC.date) ∧
    (∀ (remote2 : Remote) (f : Int → Bool) (now' : Int) (db' : Database),
      is_commit_logged db' "o/r" cC.sha = true →
      is_commit_logged (check_all_repositories remote2 f now' db').1 "o/r" cC.sha
          = true ∧
      ∀ n ∈ (check_all_repositories remote2 f now' db').2,
        n.repoFullName = "o/r" →
        ∀ c, OutMsg.individual c ∈ n.messages → c.sha ≠ cC.sha) :=
  c10_add_head_never_notified remoteOne 100 emptyDb 1 "o/r" "u" "main" cC []
    (by decide) (by decide)

end DigiX
